import Mathlib

/-!
Shallow embedding of the Family_Tube ai-server core
(`ai-server/whisperx_pipeline.py` and `ai-server/app.py`).

Timestamps are modelled as exact rationals (`ℚ`); Python floats are read as
their decimal literals.  External effects are made explicit parameters:

* the transcription collaborator is an `Except` value (segments or a raised
  error),
* the audio download is an `Except` value (path or a raised error),
* the on-disk schedule cache is a map from file name to stored schedule
  (JSON serialisation is modelled as exact), together with a boolean saying
  whether the final cache write succeeds (a failing `open`/`json.dump` raises).

The order of `list(set(...))` in Python is unspecified; it is modelled by
`List.dedup`.  The claims proved below never depend on that order.
-/

namespace FamilyTube

set_option maxRecDepth 4000

instance {e a : Type} [DecidableEq e] [DecidableEq a] : DecidableEq (Except e a) := fun x y =>
  match x, y with
  | Except.error u, Except.error v =>
    if h : u = v then Decidable.isTrue (by rw [h])
    else Decidable.isFalse (by intro hc; cases hc; exact h rfl)
  | Except.error _, Except.ok _ => Decidable.isFalse (by intro hc; cases hc)
  | Except.ok _, Except.error _ => Decidable.isFalse (by intro hc; cases hc)
  | Except.ok u, Except.ok v =>
    if h : u = v then Decidable.isTrue (by rw [h])
    else Decidable.isFalse (by intro hc; cases hc; exact h rfl)

/-- A transcript segment `{text, start, end}` as returned by WhisperX. -/
structure TranscriptSegment where
  text : String
  start : ℚ
  «end» : ℚ
deriving DecidableEq

/-- A mute-schedule entry `{"start": ..., "end": ..., "word": ...}`. -/
structure MuteInterval where
  start : ℚ
  «end» : ℚ
  word : String
deriving DecidableEq

/-- Normalization `[w.strip().lower() for w in ws if w.strip()]`. -/
def normalizeWords (ws : List String) : List String :=
  (ws.filter (fun w => w.trim ≠ "")).map (fun w => w.trim.toLower)

/-- Merging `list(set(normalized base + normalized custom))` from
`generate_mute_schedule`; the Python set order is unspecified, `dedup` is one
concrete choice of it. -/
def buildProfanityList (base custom_words : List String) : List String :=
  (normalizeWords base ++ normalizeWords custom_words).dedup

/-- Whether `needle` starts `hay` (character lists). -/
def listIsPre : List Char → List Char → Bool
  | [], _ => true
  | _ :: _, [] => false
  | a :: as, b :: bs => a == b && listIsPre as bs

/-- Whether `needle` occurs contiguously in `hay` (character lists). -/
def listOccurs (needle : List Char) : List Char → Bool
  | [] => listIsPre needle []
  | b :: bs => listIsPre needle (b :: bs) || listOccurs needle bs

/-- The Python substring test `needle in hay`. -/
def strContains (hay needle : String) : Bool :=
  listOccurs needle.data hay.data

/-- The detection loop body of `generate_mute_schedule` for one segment:
lower the text once, and for every list word contained in it append the
buffered interval `{max(0, start - buffer), end + buffer, word}`. -/
def scanSegment (profanity_list : List String) (buffer : ℚ)
    (seg : TranscriptSegment) : List MuteInterval :=
  (profanity_list.filter (fun bad_word => strContains seg.text.toLower bad_word)).map
    (fun bad_word =>
      { start := max 0 (seg.start - buffer)
        «end» := seg.«end» + buffer
        word := bad_word })

/-- The full detection loop over all segments (`mute_schedule` before the
merge step). -/
def scanSegments (profanity_list : List String) (buffer : ℚ)
    (segs : List TranscriptSegment) : List MuteInterval :=
  segs.flatMap (scanSegment profanity_list buffer)

/-- Sorting `mute_schedule.sort(key=lambda x: x["start"])` — the Python
stable sort, modelled by the (stable) `List.mergeSort`. -/
def sortByStart (l : List MuteInterval) : List MuteInterval :=
  l.mergeSort (fun a b => decide (a.start ≤ b.start))

/-- One iteration of the merge loop, with `merged` kept in reverse order:
`if not merged or m["start"] > merged[-1]["end"]: merged.append(m)
else: merged[-1]["end"] = max(merged[-1]["end"], m["end"])`. -/
def mergeStep (merged : List MuteInterval) (m : MuteInterval) : List MuteInterval :=
  match merged with
  | [] => [m]
  | last :: rest =>
    if last.«end» < m.start then m :: last :: rest
    else { last with «end» := max last.«end» m.«end» } :: rest

/-- The merge loop of `generate_mute_schedule`. -/
def mergeIntervals (l : List MuteInterval) : List MuteInterval :=
  (l.foldl mergeStep []).reverse

/-- Structural form of the merge loop: `cur` is the interval currently being
accumulated (`merged[-1]`). Proved equal to `mergeIntervals` below. -/
def mergeRun : MuteInterval → List MuteInterval → List MuteInterval
  | cur, [] => [cur]
  | cur, m :: ms =>
    if cur.«end» < m.start then cur :: mergeRun m ms
    else mergeRun { cur with «end» := max cur.«end» m.«end» } ms

/-- Structural form of `mergeIntervals`. -/
def mergeIntervalsR : List MuteInterval → List MuteInterval
  | [] => []
  | m :: ms => mergeRun m ms

/-- The duration filter predicate: `(entry["end"] - entry["start"]) <= 7.0`. -/
def durationOk (entry : MuteInterval) : Bool :=
  decide (entry.«end» - entry.start ≤ 7)

/-- The sort → merge → duration-filter tail of `generate_mute_schedule`,
applied to the (already buffered) detected intervals. -/
def consolidate0 (mute_schedule : List MuteInterval) : List MuteInterval :=
  (mergeIntervals (sortByStart mute_schedule)).filter durationOk

/-- Buffering of one raw interval, as done inline by the detection loop:
`{max(0, start - buffer), end + buffer, word}`. -/
def bufferInterval (buffer : ℚ) (m : MuteInterval) : MuteInterval :=
  { start := max 0 (m.start - buffer), «end» := m.«end» + buffer, word := m.word }

/-- The consolidation of a list of raw intervals: buffer each, then sort,
merge and filter as in `generate_mute_schedule` (max duration fixed to 7.0
as in the source). -/
def consolidate (raw : List MuteInterval) (buffer : ℚ) : List MuteInterval :=
  consolidate0 (raw.map (bufferInterval buffer))

/-- The schedule computed by a fresh (cache-missing) run of
`generate_mute_schedule`, given the transcription result `segs`. -/
def fresh_schedule (base custom_words : List String) (buffer : ℚ)
    (segs : List TranscriptSegment) : List MuteInterval :=
  consolidate0 (scanSegments (buildProfanityList base custom_words) buffer segs)

/-- The on-disk cache directory, as a map from file name to stored schedule. -/
def Cache : Type := String → Option (List MuteInterval)

/-- Reading a cache file (the `cache_file.exists()` / `json.load` branch). -/
def cacheGet (c : Cache) (k : String) : Option (List MuteInterval) := c k

/-- Writing a cache file (`json.dump`); overwrites unconditionally. -/
def cachePut (c : Cache) (k : String) (s : List MuteInterval) : Cache :=
  fun k2 => if k2 = k then some s else c k2

/-- Embeds `Path(p).stem`: the last path component without its final extension.
(Leading-dot file names are not modelled; audio paths never have them.) -/
def pathStem (p : String) : String :=
  let name := (p.splitOn "/").getLastD ""
  let parts := name.splitOn "."
  if parts.length ≤ 1 then name else String.intercalate "." parts.dropLast

/-- Embeds `cache_file = cache_dir / (Path(audio_path).stem + "_mute.json")`. -/
def cacheKey (audio_path : String) : String :=
  pathStem audio_path ++ "_mute.json"

/-- Embeds `generate_mute_schedule` of `whisperx_pipeline.py`.  Returns the raised
error or the returned schedule, together with the cache directory afterwards.
`transcription` stands for the WhisperX transcribe-and-align calls (only
reached on a cache miss); `cacheWriteOk` says whether the unguarded
`json.dump` at the end succeeds — when it fails the exception propagates and
no schedule is returned. -/
def generate_mute_schedule (cache : Cache) (cacheWriteOk : Bool)
    (audio_path : String) (transcription : Except String (List TranscriptSegment))
    (buffer : ℚ) (base custom_words : List String) :
    Except String (List MuteInterval) × Cache :=
  match cacheGet cache (cacheKey audio_path) with
  | some cached => (Except.ok cached, cache)
  | none =>
    match transcription with
    | Except.error e => (Except.error e, cache)
    | Except.ok segs =>
      let filtered := fresh_schedule base custom_words buffer segs
      if cacheWriteOk then
        (Except.ok filtered, cachePut cache (cacheKey audio_path) filtered)
      else
        (Except.error "cache write failed", cache)

/-- A job-store entry of `app.py`: `{"status": ..., "url": ..., "mute_schedule": ...}`. -/
structure Job where
  status : String
  url : String
  mute_schedule : Option (List MuteInterval)
deriving DecidableEq

/-- Embeds `process_job` of `app.py`, as the final state of the job store entry.
`dl` stands for the `download_audio(url)` call.  The whole body is wrapped in
`try/except Exception`, so the function is total: any raised step yields the
`error` entry with an empty (not `None`) schedule. -/
def process_job (dl : Except String String) (cache : Cache) (cacheWriteOk : Bool)
    (transcription : Except String (List TranscriptSegment))
    (base : List String) (url : String) (custom_words : List String) : Job :=
  match dl with
  | Except.error _ => { status := "error", url := url, mute_schedule := some [] }
  | Except.ok audio_path =>
    match (generate_mute_schedule cache cacheWriteOk audio_path transcription
        (0.17 : ℚ) base custom_words).1 with
    | Except.error _ => { status := "error", url := url, mute_schedule := some [] }
    | Except.ok mute_schedule =>
      { status := "done", url := url, mute_schedule := some mute_schedule }

/-- The two error responses of the retrieval endpoints:
HTTP 404 "Job not found" and HTTP 202 "Job still processing". -/
inductive ApiError where
  | notFound
  | notReady
deriving DecidableEq

/-- The endpoint `GET /mute_schedule/{job_id}` of `app.py`. -/
def get_mute_schedule (jobs : String → Option Job) (job_id : String) :
    Except ApiError (Option (List MuteInterval)) :=
  match jobs job_id with
  | none => Except.error ApiError.notFound
  | some job =>
    if job.status = "done" then Except.ok job.mute_schedule
    else Except.error ApiError.notReady

/-- The set of time points muted by a schedule (closed intervals). -/
def covers (l : List MuteInterval) (t : ℚ) : Prop :=
  ∃ m ∈ l, m.start ≤ t ∧ t ≤ m.«end»

instance (l : List MuteInterval) (t : ℚ) : Decidable (covers l t) :=
  List.decidableBEx _ l

/-- The running maximum of the ends of a merge group headed by `cur`. -/
def groupEnd (cur : MuteInterval) (g : List MuteInterval) : ℚ :=
  g.foldl (fun e x => max e x.«end») cur.«end»

/-- The output interval produced from the merge group `cur :: g`: start and
word of the first interval of the group, end the running maximum of ends. -/
def collapse (cur : MuteInterval) (g : List MuteInterval) : MuteInterval :=
  { start := cur.start, «end» := groupEnd cur g, word := cur.word }

/-! ### The merge loop: fold form versus structural form -/

theorem foldl_mergeStep (l : List MuteInterval) :
    ∀ (cur : MuteInterval) (rest : List MuteInterval),
      l.foldl mergeStep (cur :: rest) = (mergeRun cur l).reverse ++ rest := by
  induction l with
  | nil => intro cur rest; simp [mergeRun]
  | cons m ms ih =>
    intro cur rest
    by_cases h : cur.«end» < m.start
    · rw [List.foldl_cons]
      have hstep : mergeStep (cur :: rest) m = m :: cur :: rest := by
        simp [mergeStep, h]
      rw [hstep, ih m (cur :: rest)]
      simp [mergeRun, h]
    · rw [List.foldl_cons]
      have hstep : mergeStep (cur :: rest) m =
          { cur with «end» := max cur.«end» m.«end» } :: rest := by
        simp [mergeStep, h]
      rw [hstep, ih _ rest]
      simp [mergeRun, h]

theorem mergeIntervals_eq (l : List MuteInterval) :
    mergeIntervals l = mergeIntervalsR l := by
  cases l with
  | nil => rfl
  | cons m ms =>
    show ((m :: ms).foldl mergeStep []).reverse = mergeRun m ms
    rw [List.foldl_cons]
    have h0 : mergeStep [] m = [m] := rfl
    rw [h0, show ([m] : List MuteInterval) = [] ++ [m] from rfl]
    rw [show (([] : List MuteInterval) ++ [m]) = m :: ([] : List MuteInterval) from rfl]
    rw [foldl_mergeStep ms m []]
    simp

/-! ### Structural facts about `mergeRun` -/

theorem mergeRun_head (l : List MuteInterval) :
    ∀ cur : MuteInterval, ∃ e t, mergeRun cur l = e :: t ∧
      e.start = cur.start ∧ e.word = cur.word := by
  induction l with
  | nil => intro cur; exact ⟨cur, [], rfl, rfl, rfl⟩
  | cons m ms ih =>
    intro cur
    by_cases h : cur.«end» < m.start
    · exact ⟨cur, mergeRun m ms, by simp [mergeRun, h], rfl, rfl⟩
    · obtain ⟨e, t, he, hs, hw⟩ := ih { cur with «end» := max cur.«end» m.«end» }
      exact ⟨e, t, by simp [mergeRun, h, he], hs, hw⟩

theorem mergeRun_starts (l : List MuteInterval) :
    ∀ cur : MuteInterval, ∀ e ∈ mergeRun cur l,
      ∃ x ∈ cur :: l, e.start = x.start ∧ e.word = x.word := by
  induction l with
  | nil =>
    intro cur e he
    simp [mergeRun] at he
    exact ⟨cur, by simp, by rw [he], by rw [he]⟩
  | cons m ms ih =>
    intro cur e he
    by_cases h : cur.«end» < m.start
    · simp only [mergeRun, if_pos h] at he
      rcases List.mem_cons.mp he with heq | he2
      · exact ⟨cur, by simp, by rw [heq], by rw [heq]⟩
      · obtain ⟨x, hx, hs, hw⟩ := ih m e he2
        exact ⟨x, List.mem_cons_of_mem cur hx, hs, hw⟩
    · simp only [mergeRun, if_neg h] at he
      obtain ⟨x, hx, hs, hw⟩ := ih _ e he
      rcases List.mem_cons.mp hx with rfl | hx2
      · exact ⟨cur, by simp, hs, hw⟩
      · exact ⟨x, by simp [hx2], hs, hw⟩

theorem mergeRun_chain (l : List MuteInterval) :
    ∀ cur : MuteInterval,
      List.Chain' (fun a b => a.«end» < b.start) (mergeRun cur l) := by
  induction l with
  | nil => intro cur; simp [mergeRun]
  | cons m ms ih =>
    intro cur
    by_cases h : cur.«end» < m.start
    · simp only [mergeRun, if_pos h]
      obtain ⟨e, t, he, hs, _⟩ := mergeRun_head ms m
      rw [he]
      refine List.chain'_cons.mpr ⟨?_, by rw [← he]; exact ih m⟩
      rw [hs]; exact h
    · simp only [mergeRun, if_neg h]
      exact ih _

theorem mergeRun_pairwise_start (l : List MuteInterval) :
    ∀ cur : MuteInterval,
      List.Pairwise (fun a b => a.start ≤ b.start) (cur :: l) →
      List.Pairwise (fun a b => a.start ≤ b.start) (mergeRun cur l) := by
  induction l with
  | nil => intro cur _; simp [mergeRun]
  | cons m ms ih =>
    intro cur hp
    rcases List.pairwise_cons.mp hp with ⟨hcur, hp2⟩
    by_cases h : cur.«end» < m.start
    · simp only [mergeRun, if_pos h]
      refine List.pairwise_cons.mpr ⟨?_, ih m hp2⟩
      intro e he
      obtain ⟨x, hx, hs, _⟩ := mergeRun_starts ms m e he
      rw [hs]; exact hcur x hx
    · simp only [mergeRun, if_neg h]
      refine ih _ (List.pairwise_cons.mpr ⟨?_, (List.pairwise_cons.mp hp2).2⟩)
      intro b hb
      exact hcur b (List.mem_cons_of_mem m hb)

theorem mergeRun_pairwise_sep (l : List MuteInterval) :
    ∀ cur : MuteInterval,
      List.Pairwise (fun a b => a.start ≤ b.start) (cur :: l) →
      List.Pairwise (fun a b => a.«end» < b.start) (mergeRun cur l) := by
  induction l with
  | nil => intro cur _; simp [mergeRun]
  | cons m ms ih =>
    intro cur hp
    rcases List.pairwise_cons.mp hp with ⟨hcur, hp2⟩
    rcases List.pairwise_cons.mp hp2 with ⟨hm, _⟩
    by_cases h : cur.«end» < m.start
    · simp only [mergeRun, if_pos h]
      refine List.pairwise_cons.mpr ⟨?_, ih m hp2⟩
      intro e he
      obtain ⟨x, hx, hs, _⟩ := mergeRun_starts ms m e he
      rw [hs]
      rcases List.mem_cons.mp hx with rfl | hx2
      · exact h
      · exact lt_of_lt_of_le h (hm x hx2)
    · simp only [mergeRun, if_neg h]
      refine ih _ (List.pairwise_cons.mpr ⟨?_, (List.pairwise_cons.mp hp2).2⟩)
      intro b hb
      exact hcur b (List.mem_cons_of_mem m hb)

/-! ### Covered time points -/

theorem covers_nil (t : ℚ) : ¬ covers [] t := by
  simp [covers]

theorem covers_cons (m : MuteInterval) (l : List MuteInterval) (t : ℚ) :
    covers (m :: l) t ↔ (m.start ≤ t ∧ t ≤ m.«end») ∨ covers l t := by
  simp [covers]

theorem covers_of_mem {l₁ l₂ : List MuteInterval} {t : ℚ}
    (hsub : ∀ x ∈ l₁, x ∈ l₂) : covers l₁ t → covers l₂ t := by
  rintro ⟨m, hm, h1, h2⟩
  exact ⟨m, hsub m hm, h1, h2⟩

theorem covers_of_perm {l₁ l₂ : List MuteInterval} (h : l₁.Perm l₂) (t : ℚ) :
    covers l₁ t ↔ covers l₂ t := by
  constructor
  · exact covers_of_mem (fun x hx => h.mem_iff.mp hx)
  · exact covers_of_mem (fun x hx => h.mem_iff.mpr hx)

/-- The merge loop loses no covered time and adds none, on sorted input:
the points covered by `mergeRun cur l` are those covered by `cur :: l`. -/
theorem mergeRun_covers (l : List MuteInterval) :
    ∀ cur : MuteInterval, List.Pairwise (fun a b => a.start ≤ b.start) (cur :: l) →
      ∀ t : ℚ, covers (mergeRun cur l) t ↔
        (cur.start ≤ t ∧ t ≤ cur.«end») ∨ covers l t := by
  induction l with
  | nil =>
    intro cur _ t
    simp [mergeRun, covers]
  | cons m ms ih =>
    intro cur hp t
    rcases List.pairwise_cons.mp hp with ⟨hcur, hp2⟩
    by_cases h : cur.«end» < m.start
    · simp only [mergeRun, if_pos h]
      rw [covers_cons, ih m hp2 t, covers_cons]
    · simp only [mergeRun, if_neg h]
      have hm : m.start ≤ cur.«end» := le_of_not_lt h
      have hcm : cur.start ≤ m.start := hcur m (by simp)
      have hp3 : List.Pairwise (fun a b => a.start ≤ b.start)
          ({ cur with «end» := max cur.«end» m.«end» } :: ms) := by
        refine List.pairwise_cons.mpr ⟨?_, (List.pairwise_cons.mp hp2).2⟩
        intro b hb
        exact hcur b (List.mem_cons_of_mem m hb)
      rw [ih _ hp3 t, covers_cons]
      constructor
      · rintro (⟨h1, h2⟩ | hc)
        · rcases le_or_lt t cur.«end» with hle | hgt
          · exact Or.inl ⟨h1, hle⟩
          · have h2m : t ≤ m.«end» := by
              rcases max_cases cur.«end» m.«end» with ⟨hmx, _⟩ | ⟨hmx, _⟩
              · exact absurd (hmx ▸ h2) (not_le_of_lt hgt)
              · exact hmx ▸ h2
            exact Or.inr (Or.inl ⟨le_of_lt (lt_of_le_of_lt hm hgt), h2m⟩)
        · exact Or.inr (Or.inr hc)
      · rintro (⟨h1, h2⟩ | ⟨h1, h2⟩ | hc)
        · exact Or.inl ⟨h1, le_trans h2 (le_max_left _ _)⟩
        · exact Or.inl ⟨le_trans hcm h1, le_trans h2 (le_max_right _ _)⟩
        · exact Or.inr hc

theorem mergeIntervalsR_covers {l : List MuteInterval}
    (h : List.Pairwise (fun a b => a.start ≤ b.start) l) (t : ℚ) :
    covers (mergeIntervalsR l) t ↔ covers l t := by
  cases l with
  | nil => rfl
  | cons m ms =>
    show covers (mergeRun m ms) t ↔ _
    rw [mergeRun_covers ms m h t, covers_cons]

/-! ### The sorting step -/

theorem sortByStart_perm (l : List MuteInterval) : (sortByStart l).Perm l :=
  List.mergeSort_perm l _

theorem sortByStart_pairwise (l : List MuteInterval) :
    List.Pairwise (fun a b => a.start ≤ b.start) (sortByStart l) := by
  have h := @List.sorted_mergeSort MuteInterval
    (fun a b : MuteInterval => decide (a.start ≤ b.start))
    (fun a b c hab hbc => by
      simp only [decide_eq_true_eq] at hab hbc ⊢
      exact le_trans hab hbc)
    (fun a b => by
      simp only [Bool.or_eq_true, decide_eq_true_eq]
      exact le_total a.start b.start)
    l
  exact h.imp (fun hab => by simpa using hab)

theorem sortByStart_eq_of_pairwise {l : List MuteInterval}
    (h : List.Pairwise (fun a b => a.start ≤ b.start) l) : sortByStart l = l :=
  List.mergeSort_of_sorted (h.imp (fun hab => by simpa using hab))

/-! ### Group decomposition of the merge loop -/

theorem le_groupEnd (g : List MuteInterval) :
    ∀ cur : MuteInterval, ∀ x ∈ cur :: g, x.«end» ≤ groupEnd cur g := by
  induction g with
  | nil =>
    intro cur x hx
    simp only [List.mem_singleton] at hx
    rw [hx]; exact le_refl _
  | cons m ms ih =>
    intro cur x hx
    have hfold : groupEnd cur (m :: ms) =
        groupEnd { cur with «end» := max cur.«end» m.«end» } ms := rfl
    rcases List.mem_cons.mp hx with heq | hx2
    · rw [heq, hfold]
      exact le_trans (le_max_left _ _)
        (ih _ _ (List.mem_cons_self _ _))
    · rcases List.mem_cons.mp hx2 with heq2 | hx3
      · rw [heq2, hfold]
        exact le_trans (le_max_right _ _)
          (ih _ _ (List.mem_cons_self _ _))
      · rw [hfold]
        exact ih _ _ (List.mem_cons_of_mem _ hx3)

theorem groupEnd_mem (g : List MuteInterval) :
    ∀ cur : MuteInterval, ∃ x ∈ cur :: g, groupEnd cur g = x.«end» := by
  induction g with
  | nil => intro cur; exact ⟨cur, by simp, rfl⟩
  | cons m ms ih =>
    intro cur
    have hfold : groupEnd cur (m :: ms) =
        groupEnd { cur with «end» := max cur.«end» m.«end» } ms := rfl
    obtain ⟨x, hx, hval⟩ := ih { cur with «end» := max cur.«end» m.«end» }
    rcases List.mem_cons.mp hx with heq | hx2
    · rcases max_cases cur.«end» m.«end» with ⟨hmx, _⟩ | ⟨hmx, _⟩
      · exact ⟨cur, by simp, by
          rw [hfold, hval, heq]; simpa using hmx⟩
      · exact ⟨m, by simp, by
          rw [hfold, hval, heq]; simpa using hmx⟩
    · exact ⟨x, List.mem_cons_of_mem _ (List.mem_cons_of_mem _ hx2), by rw [hfold, hval]⟩

/-- Every run of the merge loop splits its input into a leading merge group
`cur :: g` collapsed into one output interval, followed by the remaining
input `rest`, merged recursively; the remaining input starts strictly after
the collapsed interval ends. -/
theorem mergeRun_spec (l : List MuteInterval) :
    ∀ cur : MuteInterval, ∃ g rest, l = g ++ rest ∧
      mergeRun cur l = collapse cur g :: mergeIntervalsR rest ∧
      (∀ m, rest.head? = some m → groupEnd cur g < m.start) := by
  induction l with
  | nil =>
    intro cur
    exact ⟨[], [], rfl, rfl, by intro m hm; cases hm⟩
  | cons m ms ih =>
    intro cur
    by_cases h : cur.«end» < m.start
    · refine ⟨[], m :: ms, rfl, ?_, ?_⟩
      · simp only [mergeRun, if_pos h]; rfl
      · intro x hx
        simp only [List.head?_cons, Option.some.injEq] at hx
        rw [← hx]; exact h
    · obtain ⟨g, rest, hsplit, hrun, hsep⟩ := ih { cur with «end» := max cur.«end» m.«end» }
      refine ⟨m :: g, rest, by rw [List.cons_append, ← hsplit], ?_, ?_⟩
      · simp only [mergeRun, if_neg h]
        rw [hrun]; rfl
      · intro x hx
        exact hsep x hx

/-- The merged output of a sorted list is exactly the per-group collapse of a
partition of that list into consecutive merge groups. -/
theorem merge_groups_exists (n : ℕ) :
    ∀ l : List MuteInterval, l.length ≤ n →
      ∃ gs : List (MuteInterval × List MuteInterval),
        (gs.map (fun p => p.1 :: p.2)).flatten = l ∧
        mergeIntervalsR l = gs.map (fun p => collapse p.1 p.2) := by
  induction n with
  | zero =>
    intro l hl
    rw [List.length_eq_zero.mp (Nat.le_zero.mp hl)]
    exact ⟨[], rfl, rfl⟩
  | succ n ih =>
    intro l hl
    cases l with
    | nil => exact ⟨[], rfl, rfl⟩
    | cons m ms =>
      obtain ⟨g, rest, hsplit, hrun, _⟩ := mergeRun_spec ms m
      have hrest : rest.length ≤ n := by
        have h1 : ms.length ≤ n := Nat.le_of_succ_le_succ (by simpa using hl)
        have h2 : rest.length ≤ ms.length := by
          rw [hsplit, List.length_append]; omega
        omega
      obtain ⟨gs, hjoin, hmerge⟩ := ih rest hrest
      refine ⟨(m, g) :: gs, ?_, ?_⟩
      · simp only [List.map_cons, List.flatten_cons, hjoin]
        rw [hsplit, List.cons_append]
      · show mergeRun m ms = _
        rw [hrun, hmerge]; rfl

/-! ### Merging an already separated list changes nothing -/

theorem mergeRun_of_chain (ms : List MuteInterval) :
    ∀ cur : MuteInterval,
      List.Chain' (fun a b => a.«end» < b.start) (cur :: ms) →
      mergeRun cur ms = cur :: ms := by
  induction ms with
  | nil => intro cur _; rfl
  | cons m ms2 ih =>
    intro cur hc
    rcases List.chain'_cons.mp hc with ⟨h1, h2⟩
    simp only [mergeRun, if_pos h1]
    rw [ih m h2]

theorem mergeIntervalsR_of_chain {l : List MuteInterval}
    (hc : List.Chain' (fun a b => a.«end» < b.start) l) :
    mergeIntervalsR l = l := by
  cases l with
  | nil => rfl
  | cons m ms => exact mergeRun_of_chain ms m hc

theorem mergeIntervalsR_pairwise_start {l : List MuteInterval}
    (h : List.Pairwise (fun a b => a.start ≤ b.start) l) :
    List.Pairwise (fun a b => a.start ≤ b.start) (mergeIntervalsR l) := by
  cases l with
  | nil => exact List.Pairwise.nil
  | cons m ms => exact mergeRun_pairwise_start ms m h

theorem mergeIntervalsR_pairwise_sep {l : List MuteInterval}
    (h : List.Pairwise (fun a b => a.start ≤ b.start) l) :
    List.Pairwise (fun a b => a.«end» < b.start) (mergeIntervalsR l) := by
  cases l with
  | nil => exact List.Pairwise.nil
  | cons m ms => exact mergeRun_pairwise_sep ms m h

theorem mergeIntervalsR_starts {l : List MuteInterval} :
    ∀ e ∈ mergeIntervalsR l, ∃ x ∈ l, e.start = x.start ∧ e.word = x.word := by
  cases l with
  | nil => intro e he; cases he
  | cons m ms => exact mergeRun_starts ms m

/-! ### Invariants of the consolidation tail (sort, merge, filter) -/

theorem consolidate0_eq (l : List MuteInterval) :
    consolidate0 l = (mergeIntervalsR (sortByStart l)).filter durationOk := by
  rw [consolidate0, mergeIntervals_eq]

theorem consolidate0_pairwise_start (l : List MuteInterval) :
    List.Pairwise (fun a b => a.start ≤ b.start) (consolidate0 l) := by
  rw [consolidate0_eq]
  exact (mergeIntervalsR_pairwise_start (sortByStart_pairwise l)).sublist
    (List.filter_sublist _) |>.imp id
    |>.sublist (List.Sublist.refl _)

theorem consolidate0_pairwise_sep (l : List MuteInterval) :
    List.Pairwise (fun a b => a.«end» < b.start) (consolidate0 l) := by
  rw [consolidate0_eq]
  exact List.Pairwise.sublist (List.filter_sublist _)
    (mergeIntervalsR_pairwise_sep (sortByStart_pairwise l))

theorem consolidate0_duration (l : List MuteInterval) :
    ∀ m ∈ consolidate0 l, m.«end» - m.start ≤ 7 := by
  intro m hm
  rw [consolidate0_eq] at hm
  have := List.of_mem_filter hm
  simpa [durationOk] using this

theorem consolidate0_starts (l : List MuteInterval) :
    ∀ e ∈ consolidate0 l, ∃ x ∈ l, e.start = x.start ∧ e.word = x.word := by
  intro e he
  rw [consolidate0_eq] at he
  obtain ⟨x, hx, hs, hw⟩ :=
    mergeIntervalsR_starts e (List.mem_of_mem_filter he)
  exact ⟨x, (sortByStart_perm l).mem_iff.mp hx, hs, hw⟩

theorem consolidate0_covers_subset (l : List MuteInterval) (t : ℚ) :
    covers (consolidate0 l) t → covers l t := by
  intro hc
  rw [consolidate0_eq] at hc
  have h1 : covers (mergeIntervalsR (sortByStart l)) t :=
    covers_of_mem (fun x hx => List.mem_of_mem_filter hx) hc
  have h2 : covers (sortByStart l) t :=
    (mergeIntervalsR_covers (sortByStart_pairwise l) t).mp h1
  exact (covers_of_perm (sortByStart_perm l) t).mp h2

/-- The sort-and-merge part of consolidation (before the duration filter)
covers exactly the time covered by its input. -/
theorem merge_covers_eq (l : List MuteInterval) (t : ℚ) :
    covers (mergeIntervals (sortByStart l)) t ↔ covers l t := by
  rw [mergeIntervals_eq]
  rw [mergeIntervalsR_covers (sortByStart_pairwise l) t]
  exact covers_of_perm (sortByStart_perm l) t

/-! ### Helpers for idempotence -/

theorem map_eq_self_of {α : Type} {f : α → α} :
    ∀ {l : List α}, (∀ x ∈ l, f x = x) → l.map f = l := by
  intro l
  induction l with
  | nil => intro _; rfl
  | cons a as ih =>
    intro h
    rw [List.map_cons, h a (by simp), ih (fun x hx => h x (List.mem_cons_of_mem a hx))]

theorem bufferInterval_zero {m : MuteInterval} (h : 0 ≤ m.start) :
    bufferInterval 0 m = m := by
  cases m with
  | mk s e w =>
    simp only [bufferInterval, sub_zero, add_zero]
    congr 1
    exact max_eq_right h

theorem consolidate_starts_nonneg (raw : List MuteInterval) (buffer : ℚ) :
    ∀ e ∈ consolidate raw buffer, 0 ≤ e.start := by
  intro e he
  obtain ⟨x, hx, hs, _⟩ := consolidate0_starts _ e he
  obtain ⟨y, _, hy⟩ := List.mem_map.mp hx
  rw [hs, ← hy]
  exact le_max_left 0 _

theorem filter_durationOk_eq_self {l : List MuteInterval}
    (h : ∀ m ∈ l, m.«end» - m.start ≤ 7) : l.filter durationOk = l := by
  rw [List.filter_eq_self]
  intro m hm
  simpa [durationOk] using h m hm

theorem mergeIntervalsR_chain (l : List MuteInterval) :
    List.Chain' (fun a b => a.«end» < b.start) (mergeIntervalsR l) := by
  cases l with
  | nil => exact List.chain'_nil
  | cons m ms => exact mergeRun_chain ms m

/-- The transcript segments of spec Scenario A. -/
def scenarioSegments : List TranscriptSegment :=
  [⟨"this is fine", 0, 2⟩, ⟨"what the damn thing", 2, 5⟩]

/-! ### The claims -/

/-- C1, counterexample: with the duration filter included (as the claim
states), covered time is NOT preserved.  The single buffered interval
`[0, 8]` has duration `8 > 7`, so the filter drops it: the consolidated
output covers nothing at `t = 0` although the buffered input covers it. -/
theorem c1_counterexample :
    covers (([⟨0, 8, "w"⟩] : List MuteInterval).map (bufferInterval 0)) 0 ∧
    ¬ covers (consolidate [⟨0, 8, "w"⟩] 0) 0 := by
  with_unfolding_all decide

/-- C1 (amended): the consolidated output of the buffer-sort-merge-filter
pipeline is sorted ascending by start and pairwise non-overlapping, and the
union of covered time AFTER SORT AND MERGE BUT BEFORE THE DURATION FILTER
equals the union of covered time of the buffered input; the final filtered
output covers only time covered by the buffered input (the filter may drop
covered time, see the counterexample). -/
theorem c1_merge_correctness :
    ∀ (raw : List MuteInterval) (buffer : ℚ),
      List.Pairwise (fun a b => a.start ≤ b.start) (consolidate raw buffer) ∧
      List.Pairwise (fun a b => a.«end» ≤ b.start) (consolidate raw buffer) ∧
      (∀ t : ℚ, covers (mergeIntervals (sortByStart (raw.map (bufferInterval buffer)))) t
        ↔ covers (raw.map (bufferInterval buffer)) t) ∧
      (∀ t : ℚ, covers (consolidate raw buffer) t → covers (raw.map (bufferInterval buffer)) t) := by
  intro raw b
  refine ⟨consolidate0_pairwise_start _, ?_, ?_, ?_⟩
  · exact (consolidate0_pairwise_sep (raw.map (bufferInterval b))).imp le_of_lt
  · exact merge_covers_eq (raw.map (bufferInterval b))
  · exact consolidate0_covers_subset (raw.map (bufferInterval b))

/-- Witness for C1: the subset direction applied at a concrete input. -/
theorem c1_witness :
    covers (([⟨0, 1, "w"⟩] : List MuteInterval).map (bufferInterval 0)) (1/2) :=
  (c1_merge_correctness [⟨0, 1, "w"⟩] 0).2.2.2 (1/2) (by with_unfolding_all decide)

/-- C2, counterexample: the cache write in `generate_mute_schedule` is NOT
guarded by any `try/except`.  On a cache miss with a failing write, the
function raises instead of returning the computed schedule, and
`process_job` then puts the job into the `error` state. -/
theorem c2_counterexample :
    (generate_mute_schedule (fun _ => none) false "downloads/abc.webm"
        (Except.ok scenarioSegments) 0.17 [] ["damn"]).1
      ≠ Except.ok (fresh_schedule [] ["damn"] 0.17 scenarioSegments) ∧
    (process_job (Except.ok "downloads/abc.webm") (fun _ => none) false
        (Except.ok scenarioSegments) [] "https://youtu.be/v" ["damn"]).status = "error" := by
  with_unfolding_all decide

/-- C2 (amended): if persisting the computed schedule to the cache file
fails during `generate_mute_schedule`, the exception propagates out of the
function (the computed schedule is not returned), and `process_job` catches
it at its boundary, setting the job status to `error` with an empty
schedule. -/
theorem c2_cache_write_failure_raises :
    ∀ (cache : Cache) (audio_path : String) (segs : List TranscriptSegment)
      (buffer : ℚ) (base custom_words : List String) (url : String),
      cacheGet cache (cacheKey audio_path) = none →
      (generate_mute_schedule cache false audio_path (Except.ok segs) buffer
          base custom_words).1 = Except.error "cache write failed" ∧
      process_job (Except.ok audio_path) cache false (Except.ok segs) base url custom_words
        = { status := "error", url := url, mute_schedule := some [] } := by
  intro cache path segs b base cw url hmiss
  constructor
  · simp [generate_mute_schedule, hmiss]
  · simp [process_job, generate_mute_schedule, hmiss]

/-- Witness for C2 (amended). -/
theorem c2_witness :
    (generate_mute_schedule (fun _ => none) false "downloads/abc.webm"
        (Except.ok []) 0.17 [] []).1 = Except.error "cache write failed" ∧
    process_job (Except.ok "downloads/abc.webm") (fun _ => none) false (Except.ok [])
        [] "https://youtu.be/v" []
      = { status := "error", url := "https://youtu.be/v", mute_schedule := some [] } :=
  c2_cache_write_failure_raises (fun _ => none) "downloads/abc.webm" [] 0.17 [] []
    "https://youtu.be/v" rfl

/-- C3: if any step of background processing raises (download failure, or a
raising `generate_mute_schedule` — transcription failure or cache-write
failure), `process_job` records status `error` with schedule `[]` (a list,
never `none`).  `process_job` is a total function of its step outcomes, so
the exception never propagates out of it. -/
theorem c3_job_failure_contained :
    ∀ (dl : Except String String) (cache : Cache) (cacheWriteOk : Bool)
      (transcription : Except String (List TranscriptSegment))
      (base : List String) (url : String) (custom_words : List String),
      ((∃ e, dl = Except.error e) ∨
        (∃ audio_path e, dl = Except.ok audio_path ∧
          (generate_mute_schedule cache cacheWriteOk audio_path transcription (0.17 : ℚ)
            base custom_words).1 = Except.error e)) →
      process_job dl cache cacheWriteOk transcription base url custom_words
        = { status := "error", url := url, mute_schedule := some [] } := by
  rintro dl cache w tr base url cw (⟨e, rfl⟩ | ⟨ap, e, rfl, herr⟩)
  · rfl
  · simp [process_job, herr]

/-- Witness for C3: an acquisition failure (spec Scenario E). -/
theorem c3_witness :
    process_job (Except.error "yt-dlp failed to download audio.") (fun _ => none) true
      (Except.ok []) [] "https://youtu.be/v" []
      = { status := "error", url := "https://youtu.be/v", mute_schedule := some [] } :=
  c3_job_failure_contained (Except.error "yt-dlp failed to download audio.")
    (fun _ => none) true (Except.ok []) [] "https://youtu.be/v" []
    (Or.inl ⟨"yt-dlp failed to download audio.", rfl⟩)

/-- C4: every schedule returned by a fresh (cache-missing) run of
`generate_mute_schedule` is sorted ascending by start, pairwise
non-overlapping (`interval[i].end ≤ interval[i+1].start`), and contains no
interval of duration greater than 7.0 seconds. -/
theorem c4_schedule_invariant :
    ∀ (cache : Cache) (audio_path : String) (segs : List TranscriptSegment)
      (buffer : ℚ) (base custom_words : List String) (s : List MuteInterval),
      cacheGet cache (cacheKey audio_path) = none →
      (generate_mute_schedule cache true audio_path (Except.ok segs) buffer
          base custom_words).1 = Except.ok s →
      List.Pairwise (fun a b => a.start ≤ b.start) s ∧
      List.Chain' (fun a b => a.«end» ≤ b.start) s ∧
      ∀ m ∈ s, m.«end» - m.start ≤ 7 := by
  intro cache path segs b base cw s hmiss hok
  simp [generate_mute_schedule, hmiss] at hok
  rw [← hok]
  refine ⟨consolidate0_pairwise_start _, ?_, consolidate0_duration _⟩
  exact ((consolidate0_pairwise_sep _).imp le_of_lt).chain'

/-- Witness for C4: the Scenario A schedule satisfies the invariant. -/
theorem c4_witness :
    List.Pairwise (fun a b => a.start ≤ b.start)
        ([⟨1.83, 5.17, "damn"⟩] : List MuteInterval) ∧
    List.Chain' (fun a b => a.«end» ≤ b.start)
        ([⟨1.83, 5.17, "damn"⟩] : List MuteInterval) ∧
    ∀ m ∈ ([⟨1.83, 5.17, "damn"⟩] : List MuteInterval), m.«end» - m.start ≤ 7 :=
  c4_schedule_invariant (fun _ => none) "downloads/abc.webm" scenarioSegments 0.17
    [] ["damn"] [⟨1.83, 5.17, "damn"⟩] rfl (by with_unfolding_all decide)

/-- C5: `get_mute_schedule` yields NotFound exactly on unknown job ids,
NotReady on every known job whose status is not `done` (including `error`),
and the stored schedule exactly when the status is `done`. -/
theorem c5_schedule_retrieval :
    ∀ (jobs : String → Option Job) (job_id : String),
      (jobs job_id = none →
        get_mute_schedule jobs job_id = Except.error ApiError.notFound) ∧
      (∀ job, jobs job_id = some job → job.status ≠ "done" →
        get_mute_schedule jobs job_id = Except.error ApiError.notReady) ∧
      (∀ job, jobs job_id = some job → job.status = "done" →
        get_mute_schedule jobs job_id = Except.ok job.mute_schedule) := by
  intro jobs jid
  refine ⟨?_, ?_, ?_⟩
  · intro h; simp [get_mute_schedule, h]
  · intro job h hne; simp [get_mute_schedule, h, hne]
  · intro job h he; simp [get_mute_schedule, h, he]

/-- Witness for C5: unknown id, an `error`-status job, and a `done` job. -/
theorem c5_witness :
    get_mute_schedule (fun _ => none) "j" = Except.error ApiError.notFound ∧
    get_mute_schedule (fun _ => some ⟨"error", "u", some []⟩) "j"
      = Except.error ApiError.notReady ∧
    get_mute_schedule (fun _ => some ⟨"done", "u", some [⟨1, 2, "w"⟩]⟩) "j"
      = Except.ok (some [⟨1, 2, "w"⟩]) :=
  ⟨(c5_schedule_retrieval (fun _ => none) "j").1 rfl,
   (c5_schedule_retrieval (fun _ => some ⟨"error", "u", some []⟩) "j").2.1
      ⟨"error", "u", some []⟩ rfl (by decide),
   (c5_schedule_retrieval (fun _ => some ⟨"done", "u", some [⟨1, 2, "w"⟩]⟩) "j").2.2
      ⟨"done", "u", some [⟨1, 2, "w"⟩]⟩ rfl rfl⟩

/-- C6: on a cache hit, `generate_mute_schedule` returns the cached schedule
unchanged, and its result does not depend on `custom_words` (nor on the
transcription): the lexicon has no influence on a cache hit. -/
theorem c6_cache_hit_ignores_lexicon :
    ∀ (cache : Cache) (cacheWriteOk : Bool) (audio_path : String) (s : List MuteInterval)
      (tr1 tr2 : Except String (List TranscriptSegment)) (buffer : ℚ)
      (base cw1 cw2 : List String),
      cacheGet cache (cacheKey audio_path) = some s →
      generate_mute_schedule cache cacheWriteOk audio_path tr1 buffer base cw1
        = (Except.ok s, cache) ∧
      generate_mute_schedule cache cacheWriteOk audio_path tr1 buffer base cw1
        = generate_mute_schedule cache cacheWriteOk audio_path tr2 buffer base cw2 := by
  intro cache w path s tr1 tr2 b base cw1 cw2 hhit
  constructor
  · simp [generate_mute_schedule, hhit]
  · simp [generate_mute_schedule, hhit]

/-- Witness for C6: a concrete cache hit served under two different lexica. -/
theorem c6_witness :
    generate_mute_schedule
        (cachePut (fun _ => none) (cacheKey "downloads/abc.webm") [⟨1, 2, "x"⟩])
        true "downloads/abc.webm" (Except.ok scenarioSegments) 0.17 [] ["damn"]
      = (Except.ok [⟨1, 2, "x"⟩],
          cachePut (fun _ => none) (cacheKey "downloads/abc.webm") [⟨1, 2, "x"⟩]) ∧
    generate_mute_schedule
        (cachePut (fun _ => none) (cacheKey "downloads/abc.webm") [⟨1, 2, "x"⟩])
        true "downloads/abc.webm" (Except.ok scenarioSegments) 0.17 [] ["damn"]
      = generate_mute_schedule
        (cachePut (fun _ => none) (cacheKey "downloads/abc.webm") [⟨1, 2, "x"⟩])
        true "downloads/abc.webm" (Except.error "no transcription") 0.17 [] [] :=
  c6_cache_hit_ignores_lexicon
    (cachePut (fun _ => none) (cacheKey "downloads/abc.webm") [⟨1, 2, "x"⟩])
    true "downloads/abc.webm" [⟨1, 2, "x"⟩] (Except.ok scenarioSegments)
    (Except.error "no transcription") 0.17 [] ["damn"] [] (by with_unfolding_all decide)

/-- C7: consolidation is idempotent — re-consolidating a consolidated
schedule with buffer 0 yields it unchanged. -/
theorem c7_consolidate_idempotent :
    ∀ (raw : List MuteInterval) (buffer : ℚ),
      consolidate (consolidate raw buffer) 0 = consolidate raw buffer := by
  intro raw b
  have h0 : ∀ e ∈ consolidate raw b, 0 ≤ e.start := consolidate_starts_nonneg raw b
  have hsorted := consolidate0_pairwise_start (raw.map (bufferInterval b))
  have hsep := consolidate0_pairwise_sep (raw.map (bufferInterval b))
  have hdur := consolidate0_duration (raw.map (bufferInterval b))
  show consolidate0 ((consolidate raw b).map (bufferInterval 0)) = consolidate raw b
  rw [map_eq_self_of (fun x hx => bufferInterval_zero (h0 x hx))]
  show consolidate0 (consolidate0 (raw.map (bufferInterval b)))
    = consolidate0 (raw.map (bufferInterval b))
  rw [consolidate0_eq (consolidate0 (raw.map (bufferInterval b)))]
  rw [sortByStart_eq_of_pairwise hsorted]
  rw [mergeIntervalsR_of_chain hsep.chain']
  exact filter_durationOk_eq_self hdur

/-- C8: spec Scenario A, computed end to end.  The scan emits exactly one
buffered interval `{1.83, 5.17, "damn"}` and the fresh run of
`generate_mute_schedule` returns exactly that one-interval schedule. -/
theorem c8_scenario_a :
    scanSegments (buildProfanityList [] ["damn"]) (0.17 : ℚ) scenarioSegments
        = [⟨1.83, 5.17, "damn"⟩] ∧
    (generate_mute_schedule (fun _ => none) true "downloads/abc.webm"
        (Except.ok scenarioSegments) 0.17 [] ["damn"]).1
      = Except.ok [⟨1.83, 5.17, "damn"⟩] := by
  with_unfolding_all decide

/-- C9: cache round-trip.  `put` followed by `get` on the same key returns
the stored schedule; consequently, after a fresh run that returned `s` and
wrote the cache, any later run on the same audio path is a cache hit
returning exactly `s`, whatever its lexicon, transcription or write flag. -/
theorem c9_cache_round_trip :
    (∀ (c : Cache) (k : String) (s : List MuteInterval),
      cacheGet (cachePut c k s) k = some s) ∧
    (∀ (cache : Cache) (audio_path : String) (segs : List TranscriptSegment)
        (buffer : ℚ) (base custom_words : List String) (s : List MuteInterval)
        (w2 : Bool) (tr2 : Except String (List TranscriptSegment)) (b2 : ℚ)
        (base2 cw2 : List String),
      cacheGet cache (cacheKey audio_path) = none →
      (generate_mute_schedule cache true audio_path (Except.ok segs) buffer
          base custom_words).1 = Except.ok s →
      generate_mute_schedule
          (generate_mute_schedule cache true audio_path (Except.ok segs) buffer
            base custom_words).2 w2 audio_path tr2 b2 base2 cw2
        = (Except.ok s,
            (generate_mute_schedule cache true audio_path (Except.ok segs) buffer
              base custom_words).2)) := by
  constructor
  · intro c k s; simp [cacheGet, cachePut]
  · intro cache path segs b base cw s w2 tr2 b2 base2 cw2 hmiss hok
    simp only [generate_mute_schedule, hmiss] at hok ⊢
    simp only [cacheGet] at hok ⊢
    simp only [if_true] at hok ⊢
    simp at hok
    simp [cachePut, hok]

/-- Witness for C9: the Scenario A schedule survives a round trip through
the cache, even when the second run has a different lexicon, a failing
transcription and a failing cache write. -/
theorem c9_witness :
    generate_mute_schedule
        (generate_mute_schedule (fun _ => none) true "downloads/abc.webm"
          (Except.ok scenarioSegments) 0.17 [] ["damn"]).2
        false "downloads/abc.webm" (Except.error "no transcription") 0.5 [] []
      = (Except.ok [⟨1.83, 5.17, "damn"⟩],
          (generate_mute_schedule (fun _ => none) true "downloads/abc.webm"
            (Except.ok scenarioSegments) 0.17 [] ["damn"]).2) :=
  c9_cache_round_trip.2 (fun _ => none) "downloads/abc.webm" scenarioSegments 0.17
    [] ["damn"] [⟨1.83, 5.17, "damn"⟩] false (Except.error "no transcription") 0.5 [] []
    rfl (by with_unfolding_all decide)

/-- C10: the merged output of the (stably) sorted input splits it into
consecutive merge groups; each output interval takes its start and word from
the first interval of its group and its end is the maximum end over the
group; consecutive output intervals are strictly separated. -/
theorem c10_merge_group_structure :
    ∀ l : List MuteInterval,
      ∃ gs : List (MuteInterval × List MuteInterval),
        (gs.map (fun p => p.1 :: p.2)).flatten = sortByStart l ∧
        mergeIntervals (sortByStart l) = gs.map (fun p => collapse p.1 p.2) ∧
        (∀ p ∈ gs, (∀ x ∈ p.1 :: p.2, x.«end» ≤ (collapse p.1 p.2).«end») ∧
          ∃ x ∈ p.1 :: p.2, (collapse p.1 p.2).«end» = x.«end») ∧
        List.Chain' (fun a b => a.«end» < b.start) (mergeIntervals (sortByStart l)) := by
  intro l
  obtain ⟨gs, hjoin, hmerge⟩ :=
    merge_groups_exists (sortByStart l).length (sortByStart l) (le_refl _)
  refine ⟨gs, hjoin, by rw [mergeIntervals_eq]; exact hmerge, ?_, ?_⟩
  · intro p _
    exact ⟨fun x hx => le_groupEnd p.2 p.1 x hx, groupEnd_mem p.2 p.1⟩
  · rw [mergeIntervals_eq]
    exact mergeIntervalsR_chain (sortByStart l)

/-- Witness for C10: the decomposition at a concrete two-interval input. -/
theorem c10_witness :
    ∃ gs : List (MuteInterval × List MuteInterval),
      (gs.map (fun p => p.1 :: p.2)).flatten
          = sortByStart [⟨1, 3, "a"⟩, ⟨2.5, 4, "b"⟩] ∧
      mergeIntervals (sortByStart [⟨1, 3, "a"⟩, ⟨2.5, 4, "b"⟩])
          = gs.map (fun p => collapse p.1 p.2) ∧
      (∀ p ∈ gs, (∀ x ∈ p.1 :: p.2, x.«end» ≤ (collapse p.1 p.2).«end») ∧
        ∃ x ∈ p.1 :: p.2, (collapse p.1 p.2).«end» = x.«end») ∧
      List.Chain' (fun a b => a.«end» < b.start)
        (mergeIntervals (sortByStart [⟨1, 3, "a"⟩, ⟨2.5, 4, "b"⟩])) :=
  c10_merge_group_structure [⟨1, 3, "a"⟩, ⟨2.5, 4, "b"⟩]

end FamilyTube
